import Mathlib

/-!
# Verification of the crypto-in-action modular-arithmetic and ECDSA core

Shallow embedding of `src/algebra/src/gcd.rs` (functions `gcd`, `xgcd`) and
`src/signatures/src/ecdsa.rs` (functions `pubkey`, `hash`, `sign`, `verify`),
together with models of the collaborating modules that the repository uses but
whose sources are not available here (`algebra::arith` and the subgroup/curve
interface), modelled from the specification.

Rust `i8` values are embedded as `Int`; Rust truncated `%` and `/` are
`Int.tmod` and `Int.tdiv`.  Overflow of the `i8` representation is modelled
separately by the checked variants in the `I8` namespace, in which every
primitive operation verifies that its result is representable in `i8`
(and `%` / `/` fail on the `(-128) / (-1)` overflow, as in Rust).
-/

namespace Algebra

/-- The body of the `while b != 0` loop of `gcd` in `src/algebra/src/gcd.rs`:
`a %= b; swap(a, b)` sends the state `(a, b)` to `(b, a % b)`.  The `fuel`
argument makes the recursion structural; `natAbs b + 1` iterations always
suffice (proved in `gcdFuel_some`), so the fuel-exhausted branch is
unreachable from `gcd`. -/
def gcdGo : Nat → Int → Int → Int
  | 0, a, _ => a
  | fuel + 1, a, b => if b = 0 then a else gcdGo fuel b (a.tmod b)

/-- `gcd` from `src/algebra/src/gcd.rs`: iterative Euclidean algorithm,
`while b != 0 { a %= b; swap(a, b) }; return a`. -/
def gcd (a b : Int) : Int := gcdGo (b.natAbs + 1) a b

/-- The body of the `while rj != 0` loop of `xgcd` in `src/algebra/src/gcd.rs`.
State `(sj, sj_last, tj, tj_last, rj, rj_last)`; each iteration computes
`quotient = rj_last / rj`, performs `*_last -= quotient * *j` for the three
sequences and swaps each `(curr, last)` pair.  On exit it returns
`(rj_last, sj_last, tj_last)`. -/
def xgcdGo : Nat → Int → Int → Int → Int → Int → Int → Int × Int × Int
  | 0, _, sj_last, _, tj_last, _, rj_last => (rj_last, sj_last, tj_last)
  | fuel + 1, sj, sj_last, tj, tj_last, rj, rj_last =>
    if rj = 0 then (rj_last, sj_last, tj_last)
    else
      xgcdGo fuel (sj_last - rj_last.tdiv rj * sj) sj
        (tj_last - rj_last.tdiv rj * tj) tj
        (rj_last - rj_last.tdiv rj * rj) rj

/-- `xgcd` from `src/algebra/src/gcd.rs`: iterative extended Euclidean
algorithm with initial state `sj = 0, sj_last = 1, tj = 1, tj_last = 0,
rj = b, rj_last = a`, returning `(gcd, coeff_a, coeff_b)`. -/
def xgcd (a b : Int) : Int × Int × Int := xgcdGo (b.natAbs + 1) 0 1 1 0 b a

/-- Step-counting variant of the `gcd` loop: `none` means the loop did not
finish within `fuel` iterations.  Used to state termination (claim C8). -/
def gcdFuel : Nat → Int → Int → Option Int
  | 0, a, b => if b = 0 then some a else none
  | fuel + 1, a, b => if b = 0 then some a else gcdFuel fuel b (a.tmod b)

/-- Step-counting variant of the `xgcd` loop: `none` means the loop did not
finish within `fuel` iterations. -/
def xgcdFuel : Nat → Int → Int → Int → Int → Int → Int → Option (Int × Int × Int)
  | 0, _, sj_last, _, tj_last, rj, rj_last =>
    if rj = 0 then some (rj_last, sj_last, tj_last) else none
  | fuel + 1, sj, sj_last, tj, tj_last, rj, rj_last =>
    if rj = 0 then some (rj_last, sj_last, tj_last)
    else
      xgcdFuel fuel (sj_last - rj_last.tdiv rj * sj) sj
        (tj_last - rj_last.tdiv rj * tj) tj
        (rj_last - rj_last.tdiv rj * rj) rj

end Algebra

namespace Arith

/-- Modelled from the spec: `mod_add(a, b, m)` of the `algebra::arith` module
(whose source is not under `src/`); §4.1 defines it as `(a + b) mod m`
normalized into the representative range `[0, m)`, which for a positive
modulus is exactly `Int.emod`. -/
def mod_add (a b m : Int) : Int := (a + b).emod m

/-- Modelled from the spec: `mod_mul(a, b, m)` of the `algebra::arith` module
(source not under `src/`): `(a * b) mod m` normalized into `[0, m)`. -/
def mod_mul (a b m : Int) : Int := (a * b).emod m

/-- Modelled from the spec: the modular inverse underlying `mod_div` (§4.1):
`inverse(b, m)` is obtained from `xgcd(b, m)`'s `x` coefficient, itself
reduced into `[0, m)`; it fails when `gcd(b, m) != 1` — §7 requires the
failure to be explicit, so the non-invertible case returns `none`. -/
def inverse (b m : Int) : Option Int :=
  if (Algebra.xgcd b m).1 = 1 then some ((Algebra.xgcd b m).2.1.emod m)
  else none

/-- Modelled from the spec: `mod_div(a, b, m) = a * inverse(b, m) mod m`
(§4.1), with the failure of `inverse` propagated explicitly (§7). -/
def mod_div (a b m : Int) : Option Int :=
  (inverse b m).map fun i => (a * i).emod m

end Arith

namespace Ecdsa

/-- Modelled from the spec: the cyclic-group capability interface consumed by
the ECDSA component (§6) — group order, scalar multiplication of the
generator, scalar multiplication of an arbitrary point, point addition and
the x-coordinate accessor.  The subgroup/curve implementation behind it in
the repository is not under `src/`. -/
structure SubGroup (Point : Type) where
  order : Int
  scalar_basemul : Int → Point
  scalar_mul : Point → Int → Point
  scalar_add : Point → Point → Point
  x : Point → Int

/-- `hash` from `src/signatures/src/ecdsa.rs`: the placeholder identity
transform. -/
def hash (message : Int) : Int := message

/-- `pubkey` from `src/signatures/src/ecdsa.rs`: generator times the private
scalar. -/
def pubkey {Point : Type} (g : SubGroup Point) (pk : Int) : Point :=
  g.scalar_basemul pk

/-- `sign` from `src/signatures/src/ecdsa.rs`.  A failing `mod_div` (nonce
not invertible modulo the order) propagates to the caller per §7, hence the
`Option` result. -/
def sign {Point : Type} (g : SubGroup Point)
    (message privateKey randomk : Int) : Option (Int × Int) :=
  let m := g.order
  let z := hash message
  let r := g.x (g.scalar_basemul randomk)
  match Arith.mod_div 1 randomk m with
  | none => none
  | some kinverse =>
    some (r, Arith.mod_mul (Arith.mod_add z (Arith.mod_mul r privateKey m) m)
      kinverse m)

/-- `verify` from `src/signatures/src/ecdsa.rs`.  A failing `mod_div`
(`s` not invertible modulo the order) propagates to the caller per §7. -/
def verify {Point : Type} (g : SubGroup Point)
    (message : Int) (pubkey : Point) (r s : Int) : Option Bool :=
  let m := g.order
  let z := hash message
  match Arith.mod_div 1 s m with
  | none => none
  | some sinverse =>
    some (g.x (g.scalar_add
        (g.scalar_basemul (Arith.mod_mul z sinverse m))
        (g.scalar_mul pubkey (Arith.mod_mul r sinverse m)))
      == r)

/-- Modelled from the spec: the default-constructed group
(`subgroups::subgroup::SubGroup::default()`, source not under `src/`).  The
spec (§3, §6) specifies only that it is a cyclic group with a distinguished
generator and known finite order exposing the §6 interface, and §4.1
recommends a prime order.  We model it as the additive cyclic group of
integers modulo the prime 31, points represented by their canonical residue,
generator 1, and the x-coordinate the residue itself. -/
def defaultGroup : SubGroup Int where
  order := 31
  scalar_basemul k := k.emod 31
  scalar_mul p k := (p * k).emod 31
  scalar_add p q := (p + q).emod 31
  x p := p

end Ecdsa

namespace I8

/-- Representability in Rust's `i8`. -/
def fitsI8 (x : Int) : Bool := -128 ≤ x && x ≤ 127

/-- Rust `%` on `i8`: truncated remainder; panics on a zero divisor and
overflows on `(-128) % (-1)` (the only non-representable case). -/
def remI8 (a b : Int) : Option Int :=
  if b = 0 then none
  else if a = -128 ∧ b = -1 then none
  else some (a.tmod b)

/-- Rust `/` on `i8`: truncated division; panics on a zero divisor and
overflows on `(-128) / (-1) = 128`. -/
def divI8 (a b : Int) : Option Int :=
  if b = 0 then none
  else if a = -128 ∧ b = -1 then none
  else some (a.tdiv b)

/-- Rust `*` on `i8`: fails unless the product is representable. -/
def mulI8 (a b : Int) : Option Int :=
  if fitsI8 (a * b) then some (a * b) else none

/-- Rust `-` on `i8`: fails unless the difference is representable. -/
def subI8 (a b : Int) : Option Int :=
  if fitsI8 (a - b) then some (a - b) else none

/-- The `gcd` loop of `src/algebra/src/gcd.rs` with every `i8` operation
checked; `none` means a panic or overflow (or, before `gcdI8`'s fuel bound
is reached, fuel exhaustion — the bound `natAbs b + 1` always suffices). -/
def gcdI8Go : Nat → Int → Int → Option Int
  | 0, a, b => if b = 0 then some a else none
  | fuel + 1, a, b =>
    if b = 0 then some a
    else (remI8 a b).bind fun r => gcdI8Go fuel b r

/-- `gcd` on `i8` arguments with overflow checking. -/
def gcdI8 (a b : Int) : Option Int := gcdI8Go (b.natAbs + 1) a b

/-- The `xgcd` loop of `src/algebra/src/gcd.rs` with every `i8` operation
checked, in the source's evaluation order: quotient, then the three
multiply-subtract updates. -/
def xgcdI8Go : Nat → Int → Int → Int → Int → Int → Int → Option (Int × Int × Int)
  | 0, _, sj_last, _, tj_last, rj, rj_last =>
    if rj = 0 then some (rj_last, sj_last, tj_last) else none
  | fuel + 1, sj, sj_last, tj, tj_last, rj, rj_last =>
    if rj = 0 then some (rj_last, sj_last, tj_last)
    else
      (divI8 rj_last rj).bind fun quotient =>
      (mulI8 quotient rj).bind fun pr =>
      (subI8 rj_last pr).bind fun rj2 =>
      (mulI8 quotient sj).bind fun ps =>
      (subI8 sj_last ps).bind fun sj2 =>
      (mulI8 quotient tj).bind fun pt =>
      (subI8 tj_last pt).bind fun tj2 =>
      xgcdI8Go fuel sj2 sj tj2 tj rj2 rj

/-- `xgcd` on `i8` arguments with overflow checking. -/
def xgcdI8 (a b : Int) : Option (Int × Int × Int) :=
  xgcdI8Go (b.natAbs + 1) 0 1 1 0 b a

end I8

namespace Algebra

/-- The absolute value of a truncated remainder is the `Nat` remainder of the
absolute values (Rust `%` on `i8` agrees with `Int.tmod`). -/
theorem natAbs_tmod (a b : Int) : (a.tmod b).natAbs = a.natAbs % b.natAbs := by
  cases a <;> cases b <;>
    simp only [Int.tmod, Int.natAbs_neg, Int.natAbs_ofNat, Int.natAbs_negSucc] <;> rfl

/-- The remainder strictly decreases in magnitude at each loop step. -/
theorem natAbs_tmod_lt (a : Int) {b : Int} (hb : b ≠ 0) :
    (a.tmod b).natAbs < b.natAbs := by
  rw [natAbs_tmod]
  exact Nat.mod_lt _ (Int.natAbs_pos.mpr hb)

/-- Fuel irrelevance: any sufficient fuel computes the same `gcd` loop result. -/
theorem gcdGo_irrel : ∀ (f g : Nat) (a b : Int), b.natAbs < f → b.natAbs < g →
    gcdGo f a b = gcdGo g a b := by
  intro f
  induction f with
  | zero => intro g a b hf; omega
  | succ f ih =>
    intro g a b hf hg
    match g, hg with
    | g + 1, hg =>
      simp only [gcdGo]
      by_cases hb : b = 0
      · simp [hb]
      · simp only [hb, if_false]
        exact ih g b (a.tmod b)
          (by have := natAbs_tmod_lt a hb; omega)
          (by have := natAbs_tmod_lt a hb; omega)

/-- With fuel `natAbs b + 1` the step-counting `gcd` loop finishes and agrees
with `gcd`: the loop terminates because the remainder strictly shrinks. -/
theorem gcdFuel_some : ∀ (f : Nat) (a b : Int), b.natAbs < f →
    gcdFuel f a b = some (gcdGo f a b) := by
  intro f
  induction f with
  | zero => intro a b hf; omega
  | succ f ih =>
    intro a b hf
    simp only [gcdFuel, gcdGo]
    by_cases hb : b = 0
    · simp [hb]
    · simp only [hb, if_false]
      exact ih b (a.tmod b) (by have := natAbs_tmod_lt a hb; omega)

/-- Fuel irrelevance for the `xgcd` loop. -/
theorem xgcdGo_irrel : ∀ (f g : Nat) (sj sj_last tj tj_last rj rj_last : Int),
    rj.natAbs < f → rj.natAbs < g →
    xgcdGo f sj sj_last tj tj_last rj rj_last =
      xgcdGo g sj sj_last tj tj_last rj rj_last := by
  intro f
  induction f with
  | zero => intro g sj sj_last tj tj_last rj rj_last hf; omega
  | succ f ih =>
    intro g sj sj_last tj tj_last rj rj_last hf hg
    match g, hg with
    | g + 1, hg =>
      simp only [xgcdGo]
      by_cases hr : rj = 0
      · simp [hr]
      · simp only [hr, if_false]
        refine ih g _ _ _ _ _ _ ?_ ?_ <;>
        · have h1 : rj_last - rj_last.tdiv rj * rj = rj_last.tmod rj := by
            have := Int.tdiv_add_tmod rj_last rj; linarith
          rw [h1]
          have := natAbs_tmod_lt rj_last hr
          omega

/-- With fuel `natAbs b + 1` the step-counting `xgcd` loop finishes and agrees
with `xgcd`. -/
theorem xgcdFuel_some : ∀ (f : Nat) (sj sj_last tj tj_last rj rj_last : Int),
    rj.natAbs < f →
    xgcdFuel f sj sj_last tj tj_last rj rj_last =
      some (xgcdGo f sj sj_last tj tj_last rj rj_last) := by
  intro f
  induction f with
  | zero => intro sj sj_last tj tj_last rj rj_last hf; omega
  | succ f ih =>
    intro sj sj_last tj tj_last rj rj_last hf
    simp only [xgcdFuel, xgcdGo]
    by_cases hr : rj = 0
    · simp [hr]
    · simp only [hr, if_false]
      refine ih _ _ _ _ _ _ ?_
      have h1 : rj_last - rj_last.tdiv rj * rj = rj_last.tmod rj := by
        have := Int.tdiv_add_tmod rj_last rj; linarith
      rw [h1]
      have := natAbs_tmod_lt rj_last hr
      omega

/-- Loop invariant: the Bézout identity for both tracked rows is preserved,
so the final triple satisfies `a * x + b * y = g`. -/
theorem xgcdGo_bezout : ∀ (f : Nat) (a b sj sj_last tj tj_last rj rj_last : Int),
    rj.natAbs < f →
    a * sj + b * tj = rj → a * sj_last + b * tj_last = rj_last →
    a * (xgcdGo f sj sj_last tj tj_last rj rj_last).2.1 +
      b * (xgcdGo f sj sj_last tj tj_last rj rj_last).2.2 =
      (xgcdGo f sj sj_last tj tj_last rj rj_last).1 := by
  intro f
  induction f with
  | zero => intro a b sj sj_last tj tj_last rj rj_last hf; omega
  | succ f ih =>
    intro a b sj sj_last tj tj_last rj rj_last hf hcur hlast
    simp only [xgcdGo]
    by_cases hr : rj = 0
    · simpa [hr] using hlast
    · simp only [hr, if_false]
      refine ih a b _ _ _ _ _ _ ?_ ?_ ?_
      · have h1 : rj_last - rj_last.tdiv rj * rj = rj_last.tmod rj := by
          have := Int.tdiv_add_tmod rj_last rj; linarith
        rw [h1]
        have := natAbs_tmod_lt rj_last hr
        omega
      · linear_combination hlast - rj_last.tdiv rj * hcur
      · exact hcur

/-- Loop invariant: the final first component divides both tracked remainders. -/
theorem xgcdGo_dvd : ∀ (f : Nat) (sj sj_last tj tj_last rj rj_last : Int),
    rj.natAbs < f →
    (xgcdGo f sj sj_last tj tj_last rj rj_last).1 ∣ rj ∧
      (xgcdGo f sj sj_last tj tj_last rj rj_last).1 ∣ rj_last := by
  intro f
  induction f with
  | zero => intro sj sj_last tj tj_last rj rj_last hf; omega
  | succ f ih =>
    intro sj sj_last tj tj_last rj rj_last hf
    simp only [xgcdGo]
    by_cases hr : rj = 0
    · simp [hr]
    · simp only [hr, if_false]
      obtain ⟨h1, h2⟩ := ih _ _ _ _ _ _
        (show (rj_last - rj_last.tdiv rj * rj).natAbs < f by
          have heq : rj_last - rj_last.tdiv rj * rj = rj_last.tmod rj := by
            have := Int.tdiv_add_tmod rj_last rj; linarith
          rw [heq]
          have := natAbs_tmod_lt rj_last hr
          omega)
      refine ⟨h2, ?_⟩
      have h3 := dvd_add h1 (Dvd.dvd.mul_left h2 (rj_last.tdiv rj))
      simpa using h3

/-- Loop invariant: from nonnegative remainders the final `g` is nonnegative. -/
theorem xgcdGo_r_nonneg : ∀ (f : Nat) (sj sj_last tj tj_last rj rj_last : Int),
    rj.natAbs < f → 0 ≤ rj → 0 ≤ rj_last →
    0 ≤ (xgcdGo f sj sj_last tj tj_last rj rj_last).1 := by
  intro f
  induction f with
  | zero => intro sj sj_last tj tj_last rj rj_last hf; omega
  | succ f ih =>
    intro sj sj_last tj tj_last rj rj_last hf hrj hrl
    simp only [xgcdGo]
    by_cases hr : rj = 0
    · simpa [hr] using hrl
    · simp only [hr, if_false]
      have heq : rj_last - rj_last.tdiv rj * rj = rj_last.tmod rj := by
        have := Int.tdiv_add_tmod rj_last rj; linarith
      refine ih _ _ _ _ _ _ ?_ ?_ hrj
      · rw [heq]
        have := natAbs_tmod_lt rj_last hr
        omega
      · rw [heq]
        exact Int.tmod_nonneg _ hrl

/-- The Bézout identity for `xgcd`, with no hypothesis on the inputs. -/
theorem xgcd_bezout (a b : Int) :
    a * (xgcd a b).2.1 + b * (xgcd a b).2.2 = (xgcd a b).1 := by
  unfold xgcd
  exact xgcdGo_bezout (b.natAbs + 1) a b 0 1 1 0 b a (by omega) (by ring) (by ring)

/-- The first component of `xgcd` divides both inputs. -/
theorem xgcd_fst_dvd (a b : Int) : (xgcd a b).1 ∣ a ∧ (xgcd a b).1 ∣ b := by
  unfold xgcd
  have h := xgcdGo_dvd (b.natAbs + 1) 0 1 1 0 b a (by omega)
  exact ⟨h.2, h.1⟩

/-- The first component of `xgcd` is `gcd a b` up to sign. -/
theorem xgcd_fst_natAbs (a b : Int) : (xgcd a b).1.natAbs = Int.gcd a b := by
  have hdvd := xgcd_fst_dvd a b
  have hbez := xgcd_bezout a b
  have h1 : (xgcd a b).1 ∣ (Int.gcd a b : Int) := Int.dvd_gcd hdvd.1 hdvd.2
  have h2 : (Int.gcd a b : Int) ∣ (xgcd a b).1 := by
    rw [← hbez]
    exact dvd_add (Dvd.dvd.mul_right Int.gcd_dvd_left _)
      (Dvd.dvd.mul_right Int.gcd_dvd_right _)
  have h3 := Int.natAbs_dvd_natAbs.mpr h1
  have h4 := Int.natAbs_dvd_natAbs.mpr h2
  rw [Int.natAbs_ofNat] at h3 h4
  exact Nat.dvd_antisymm h3 h4

/-- For nonnegative inputs the first component of `xgcd` is nonnegative. -/
theorem xgcd_fst_nonneg {a b : Int} (ha : 0 ≤ a) (hb : 0 ≤ b) :
    0 ≤ (xgcd a b).1 := by
  unfold xgcd
  exact xgcdGo_r_nonneg (b.natAbs + 1) 0 1 1 0 b a (by omega) hb ha

/-- For nonnegative coprime inputs the first component of `xgcd` is exactly 1. -/
theorem xgcd_fst_eq_one {a b : Int} (ha : 0 ≤ a) (hb : 0 ≤ b)
    (h : Int.gcd a b = 1) : (xgcd a b).1 = 1 := by
  have h1 := xgcd_fst_natAbs a b
  have h2 := xgcd_fst_nonneg ha hb
  rw [h] at h1
  omega

end Algebra

namespace Arith

/-- `mod_add` is congruent to addition modulo `m`. -/
theorem mod_add_modEq (a b m : Int) : mod_add a b m ≡ a + b [ZMOD m] :=
  Int.emod_emod_of_dvd _ dvd_rfl

/-- `mod_mul` is congruent to multiplication modulo `m`. -/
theorem mod_mul_modEq (a b m : Int) : mod_mul a b m ≡ a * b [ZMOD m] :=
  Int.emod_emod_of_dvd _ dvd_rfl

/-- `mod_mul` lands in `[0, m)` for a positive modulus. -/
theorem mod_mul_nonneg {m : Int} (a b : Int) (hm : 0 < m) :
    0 ≤ mod_mul a b m :=
  Int.emod_nonneg _ (by omega)

/-- When `mod_div 1 b m` succeeds, its result is a modular inverse of `b`. -/
theorem mod_div_one_inv {b m i : Int} (h : mod_div 1 b m = some i) :
    b * i ≡ 1 [ZMOD m] := by
  unfold mod_div inverse at h
  by_cases hg : (Algebra.xgcd b m).1 = 1
  · simp only [hg, if_true, Option.map_some', Option.some.injEq] at h
    have hbez := Algebra.xgcd_bezout b m
    rw [hg] at hbez
    have hix : i ≡ (Algebra.xgcd b m).2.1 [ZMOD m] := by
      rw [← h]
      show (1 * (Algebra.xgcd b m).2.1.emod m).emod m ≡ _ [ZMOD m]
      rw [one_mul]
      exact (Int.emod_emod_of_dvd _ dvd_rfl).trans (Int.emod_emod_of_dvd _ dvd_rfl)
    calc b * i ≡ b * (Algebra.xgcd b m).2.1 [ZMOD m] := hix.mul_left b
      _ ≡ 1 [ZMOD m] := by
          rw [Int.ModEq]
          have : b * (Algebra.xgcd b m).2.1 =
              1 - m * (Algebra.xgcd b m).2.2 := by linarith
          rw [this]
          simp [Int.sub_emod, Int.mul_emod_right]
  · simp [hg] at h

/-- When `gcd(b, m) != 1`, `mod_div` fails explicitly (returns `none`). -/
theorem mod_div_none {b m : Int} (a : Int) (h : Int.gcd b m ≠ 1) :
    mod_div a b m = none := by
  unfold mod_div inverse
  have hg : (Algebra.xgcd b m).1 ≠ 1 := by
    intro hone
    have := Algebra.xgcd_fst_natAbs b m
    rw [hone] at this
    exact h this.symm
  simp [hg]

/-- For nonnegative coprime arguments, `inverse` succeeds. -/
theorem inverse_isSome {b m : Int} (hb : 0 ≤ b) (hm : 0 ≤ m)
    (h : Int.gcd b m = 1) :
    inverse b m = some ((Algebra.xgcd b m).2.1.emod m) := by
  unfold inverse
  rw [Algebra.xgcd_fst_eq_one hb hm h]
  simp

/-- For nonnegative coprime arguments, `mod_div` succeeds. -/
theorem mod_div_isSome {b m : Int} (a : Int) (hb : 0 ≤ b) (hm : 0 ≤ m)
    (h : Int.gcd b m = 1) :
    mod_div a b m = some ((a * (Algebra.xgcd b m).2.1.emod m).emod m) := by
  unfold mod_div
  rw [inverse_isSome hb hm h]
  rfl

end Arith

namespace Ecdsa

/-- Characterization of `sign` when the nonce inversion succeeds. -/
theorem sign_eq {Point : Type} (g : SubGroup Point)
    (message privateKey randomk kinverse : Int)
    (h : Arith.mod_div 1 randomk g.order = some kinverse) :
    sign g message privateKey randomk =
      some (g.x (g.scalar_basemul randomk),
        Arith.mod_mul
          (Arith.mod_add (hash message)
            (Arith.mod_mul (g.x (g.scalar_basemul randomk)) privateKey g.order)
            g.order)
          kinverse g.order) := by
  simp only [sign, h]

/-- `sign` propagates a failing nonce inversion. -/
theorem sign_none {Point : Type} (g : SubGroup Point)
    (message privateKey randomk : Int)
    (h : Arith.mod_div 1 randomk g.order = none) :
    sign g message privateKey randomk = none := by
  simp only [sign, h]

/-- Characterization of `verify` when the `s` inversion succeeds. -/
theorem verify_eq {Point : Type} (g : SubGroup Point)
    (message : Int) (pk : Point) (r s sinverse : Int)
    (h : Arith.mod_div 1 s g.order = some sinverse) :
    verify g message pk r s =
      some (g.x (g.scalar_add
          (g.scalar_basemul (Arith.mod_mul (hash message) sinverse g.order))
          (g.scalar_mul pk (Arith.mod_mul r sinverse g.order)))
        == r) := by
  simp only [verify, h]

/-- `verify` propagates a failing `s` inversion. -/
theorem verify_none {Point : Type} (g : SubGroup Point)
    (message : Int) (pk : Point) (r s : Int)
    (h : Arith.mod_div 1 s g.order = none) :
    verify g message pk r s = none := by
  simp only [verify, h]

end Ecdsa

namespace Ecdsa

/-- In the modelled default group, `scalar_basemul` only depends on the
scalar modulo the order. -/
theorem defaultGroup_basemul_congr (u v : Int)
    (h : u ≡ v [ZMOD defaultGroup.order]) :
    defaultGroup.scalar_basemul u = defaultGroup.scalar_basemul v := h

/-- In the modelled default group, scalar multiplication of a generator
multiple is a generator multiple. -/
theorem defaultGroup_mul (u v : Int) :
    defaultGroup.scalar_mul (defaultGroup.scalar_basemul u) v =
      defaultGroup.scalar_basemul (u * v) :=
  Int.ModEq.mul_right v (Int.emod_emod_of_dvd u dvd_rfl)

/-- In the modelled default group, addition of generator multiples adds the
scalars. -/
theorem defaultGroup_add (u v : Int) :
    defaultGroup.scalar_add (defaultGroup.scalar_basemul u)
      (defaultGroup.scalar_basemul v) = defaultGroup.scalar_basemul (u + v) :=
  Int.ModEq.add (Int.emod_emod_of_dvd u dvd_rfl) (Int.emod_emod_of_dvd v dvd_rfl)

end Ecdsa

/-- C2 (amended): over any group faithful to the spec's cyclic-group
interface, signing with a nonce whose inversion succeeds and verifying with
an `s` coprime to the order round-trips to `some true`. -/
theorem ecdsa_sign_verify_roundtrip {Point : Type} (g : Ecdsa.SubGroup Point)
    (msg d k r s : Int)
    (hBM : ∀ u v : Int, u ≡ v [ZMOD g.order] →
      g.scalar_basemul u = g.scalar_basemul v)
    (hMul : ∀ u v : Int,
      g.scalar_mul (g.scalar_basemul u) v = g.scalar_basemul (u * v))
    (hAdd : ∀ u v : Int,
      g.scalar_add (g.scalar_basemul u) (g.scalar_basemul v) =
        g.scalar_basemul (u + v))
    (hn : 0 < g.order)
    (hsign : Ecdsa.sign g msg d k = some (r, s))
    (hs : Int.gcd s g.order = 1) :
    Ecdsa.verify g msg (Ecdsa.pubkey g d) r s = some true := by
  rcases hmk : Arith.mod_div 1 k g.order with _ | kinv
  · rw [Ecdsa.sign_none g msg d k hmk] at hsign
    exact Option.noConfusion hsign
  · rw [Ecdsa.sign_eq g msg d k kinv hmk] at hsign
    simp only [Option.some.injEq, Prod.mk.injEq] at hsign
    obtain ⟨hr, hsval⟩ := hsign
    rw [hr] at hsval
    have hs0 : 0 ≤ s := by
      rw [← hsval]; exact Arith.mod_mul_nonneg _ _ hn
    obtain ⟨sinv, hsinv_eq⟩ : ∃ i, Arith.mod_div 1 s g.order = some i :=
      ⟨_, Arith.mod_div_isSome 1 hs0 (le_of_lt hn) hs⟩
    rw [Ecdsa.verify_eq g msg (Ecdsa.pubkey g d) r s sinv hsinv_eq]
    have hkinv : k * kinv ≡ 1 [ZMOD g.order] := Arith.mod_div_one_inv hmk
    have hsinv : s * sinv ≡ 1 [ZMOD g.order] := Arith.mod_div_one_inv hsinv_eq
    have hscong : s ≡ (Ecdsa.hash msg + r * d) * kinv [ZMOD g.order] := by
      rw [← hsval]
      have h1 : Arith.mod_add (Ecdsa.hash msg) (Arith.mod_mul r d g.order)
          g.order ≡ Ecdsa.hash msg + r * d [ZMOD g.order] :=
        (Arith.mod_add_modEq _ _ _).trans
          ((Arith.mod_mul_modEq r d g.order).add_left _)
      exact (Arith.mod_mul_modEq _ _ _).trans (h1.mul_right kinv)
    have hzs : Ecdsa.hash msg + r * d ≡ s * k [ZMOD g.order] := by
      calc Ecdsa.hash msg + r * d = (Ecdsa.hash msg + r * d) * 1 := by ring
        _ ≡ (Ecdsa.hash msg + r * d) * (k * kinv) [ZMOD g.order] :=
            hkinv.symm.mul_left _
        _ = (Ecdsa.hash msg + r * d) * kinv * k := by ring
        _ ≡ s * k [ZMOD g.order] := (hscong.mul_right k).symm
    have hkey : Arith.mod_mul (Ecdsa.hash msg) sinv g.order +
        d * Arith.mod_mul r sinv g.order ≡ k [ZMOD g.order] := by
      calc Arith.mod_mul (Ecdsa.hash msg) sinv g.order +
            d * Arith.mod_mul r sinv g.order
          ≡ Ecdsa.hash msg * sinv + d * (r * sinv) [ZMOD g.order] :=
            (Arith.mod_mul_modEq _ _ _).add
              ((Arith.mod_mul_modEq _ _ _).mul_left d)
        _ = (Ecdsa.hash msg + r * d) * sinv := by ring
        _ ≡ s * k * sinv [ZMOD g.order] := hzs.mul_right sinv
        _ = s * sinv * k := by ring
        _ ≡ 1 * k [ZMOD g.order] := hsinv.mul_right k
        _ = k := by ring
    rw [show Ecdsa.pubkey g d = g.scalar_basemul d from rfl, hMul d _,
      hAdd _ _, hBM _ k hkey, hr]
    simp

namespace I8

/-- A value of absolute value at most 127 is representable in `i8`. -/
theorem fits_of_natAbs {v : Int} (h : v.natAbs ≤ 127) : fitsI8 v = true := by
  simp only [fitsI8, Bool.and_eq_true, decide_eq_true_eq]
  omega

/-- Multiplying by a unit preserves the absolute value. -/
theorem natAbs_unit_mul {u : Int} (hu : u = 1 ∨ u = -1) (v : Int) :
    (u * v).natAbs = v.natAbs := by
  rcases hu with rfl | rfl <;> simp

/-- A product of units is a unit. -/
theorem unit_mul_unit {u w : Int} (hu : u = 1 ∨ u = -1) (hw : w = 1 ∨ w = -1) :
    u * w = 1 ∨ u * w = -1 := by
  rcases hu with rfl | rfl <;> rcases hw with rfl | rfl <;> simp

/-- The negation of a unit is a unit. -/
theorem neg_unit {u : Int} (hu : u = 1 ∨ u = -1) : -u = 1 ∨ -u = -1 := by
  rcases hu with rfl | rfl <;> simp

/-- Truncated division distributes over unit multiples of its arguments. -/
theorem tdiv_units {ur ul : Int} (hur : ur = 1 ∨ ur = -1)
    (hul : ul = 1 ∨ ul = -1) (x y : Int) :
    (ul * y).tdiv (ur * x) = ul * ur * (y.tdiv x) := by
  rcases hur with rfl | rfl <;> rcases hul with rfl | rfl <;>
    simp [Int.neg_tdiv, Int.tdiv_neg]

/-- A value whose unit multiple lies in `[0, 127]` has absolute value at most
127. -/
theorem natAbs_le_of_unit {u w : Int} (hu : u = 1 ∨ u = -1)
    (h1 : 0 ≤ u * w) (h2 : u * w ≤ 127) : w.natAbs ≤ 127 := by
  rcases hu with rfl | rfl <;> simp only [one_mul, neg_one_mul] at h1 h2 <;> omega

/-- A value in `[0, 127]` has absolute value at most 127. -/
theorem natAbs_le_127 {w : Int} (h0 : 0 ≤ w) (h7 : w ≤ 127) :
    w.natAbs ≤ 127 := by omega

/-- Fuel bound for the recursive step of the safety invariant. -/
theorem fuel_step {m x : Int} {f : Nat} (hm : 0 ≤ m) (hx : m < x)
    (hf : x.natAbs < f + 1) : m.natAbs < f := by omega

/-- The checked `gcd` loop completes, agreeing with the unchecked loop, for
states within `[-127, 127]` (no intermediate `i8` overflow occurs). -/
theorem gcdI8Go_safe : ∀ (f : Nat) (a b : Int),
    -127 ≤ a → a ≤ 127 → -127 ≤ b → b ≤ 127 → b.natAbs < f →
    gcdI8Go f a b = some (Algebra.gcdGo f a b) := by
  intro f
  induction f with
  | zero => intro a b ha1 ha2 hb1 hb2 hf; omega
  | succ f ih =>
    intro a b ha1 ha2 hb1 hb2 hf
    by_cases hb : b = 0
    · simp [gcdI8Go, Algebra.gcdGo, hb]
    · have hrem : remI8 a b = some (a.tmod b) := by
        unfold remI8
        rw [if_neg hb, if_neg (by omega : ¬(a = -128 ∧ b = -1))]
      simp only [gcdI8Go, Algebra.gcdGo, hb, if_false, hrem, Option.some_bind]
      have habs := Algebra.natAbs_tmod_lt a hb
      exact ih b (a.tmod b) hb1 hb2 (by omega) (by omega) (by omega)

/-- `gcd` on any `i8` pair strictly above the minimum completes without
overflow and agrees with the unbounded computation. -/
theorem gcdI8_safe {a b : Int} (ha1 : -127 ≤ a) (ha2 : a ≤ 127)
    (hb1 : -127 ≤ b) (hb2 : b ≤ 127) :
    gcdI8 a b = some (Algebra.gcd a b) :=
  gcdI8Go_safe (b.natAbs + 1) a b ha1 ha2 hb1 hb2 (by omega)

end I8

namespace Algebra

/-- One unfolding of the `xgcd` loop body when the current remainder is
nonzero. -/
theorem xgcdGo_step (f : Nat) (sj sj_last tj tj_last rj rj_last : Int)
    (h : rj ≠ 0) :
    xgcdGo (f + 1) sj sj_last tj tj_last rj rj_last =
      xgcdGo f (sj_last - rj_last.tdiv rj * sj) sj
        (tj_last - rj_last.tdiv rj * tj) tj
        (rj_last - rj_last.tdiv rj * rj) rj := by
  simp [xgcdGo, h]

end Algebra

namespace I8

/-- One unfolding of the checked `xgcd` loop body when the current remainder
is nonzero. -/
theorem xgcdI8Go_step (f : Nat) (sj sj_last tj tj_last rj rj_last : Int)
    (h : rj ≠ 0) :
    xgcdI8Go (f + 1) sj sj_last tj tj_last rj rj_last =
      (divI8 rj_last rj).bind fun quotient =>
      (mulI8 quotient rj).bind fun pr =>
      (subI8 rj_last pr).bind fun rj2 =>
      (mulI8 quotient sj).bind fun ps =>
      (subI8 sj_last ps).bind fun sj2 =>
      (mulI8 quotient tj).bind fun pt =>
      (subI8 tj_last pt).bind fun tj2 =>
      xgcdI8Go f sj2 sj tj2 tj rj2 rj := by
  simp [xgcdI8Go, h]

/-- One step of the checked loop, given the results of its seven checked
operations. -/
theorem xgcdI8Go_step_some (f : Nat)
    (sj sj_last tj tj_last rj rj_last q pr rj2 ps sj2 pt tj2 : Int)
    (h : rj ≠ 0) (hd : divI8 rj_last rj = some q)
    (h1 : mulI8 q rj = some pr) (h2 : subI8 rj_last pr = some rj2)
    (h3 : mulI8 q sj = some ps) (h4 : subI8 sj_last ps = some sj2)
    (h5 : mulI8 q tj = some pt) (h6 : subI8 tj_last pt = some tj2) :
    xgcdI8Go (f + 1) sj sj_last tj tj_last rj rj_last =
      xgcdI8Go f sj2 sj tj2 tj rj2 rj := by
  rw [xgcdI8Go_step f _ _ _ _ _ _ h, hd, Option.some_bind, h1,
    Option.some_bind, h2, Option.some_bind, h3, Option.some_bind, h4,
    Option.some_bind, h5, Option.some_bind, h6, Option.some_bind]

end I8

namespace Algebra

/-- One step of the `xgcd` loop with the updated state given explicitly. -/
theorem xgcdGo_step_eq (f : Nat)
    (sj sj_last tj tj_last rj rj_last q sj2 tj2 rj2 : Int)
    (h : rj ≠ 0) (hq : rj_last.tdiv rj = q)
    (hs : sj_last - q * sj = sj2) (ht : tj_last - q * tj = tj2)
    (hr : rj_last - q * rj = rj2) :
    xgcdGo (f + 1) sj sj_last tj tj_last rj rj_last =
      xgcdGo f sj2 sj tj2 tj rj2 rj := by
  subst hq hs ht hr
  simp [xgcdGo, h]

end Algebra

namespace I8

set_option maxHeartbeats 1000000 in
/-- Main safety invariant for the checked `xgcd` loop.  The actual state is a
unit-signed version of a nonnegative base state `(s, sl, t, tl, x, y)`
carrying the classical extended-Euclid determinant identities with
sign-alternation witness `ε`; every intermediate product and difference then
stays within `[-127, 127]`, so the checked loop completes and agrees with the
unchecked loop. -/
theorem xgcdI8Go_safe : ∀ (f : Nat) (x y s sl t tl ur ul ua ub ε aa bb : Int),
    x.natAbs < f →
    (ur = 1 ∨ ur = -1) → (ul = 1 ∨ ul = -1) →
    (ua = 1 ∨ ua = -1) → (ub = 1 ∨ ub = -1) → (ε = 1 ∨ ε = -1) →
    0 ≤ x → x ≤ 127 → 0 ≤ y → y ≤ 127 →
    0 ≤ aa → aa ≤ 127 → 0 ≤ bb → bb ≤ 127 →
    ε * (s * y - sl * x) = bb → 0 ≤ ε * s → ε * sl ≤ 0 →
    ε * (t * y - tl * x) = -aa → ε * t ≤ 0 → 0 ≤ ε * tl →
    xgcdI8Go f (ur * ua * s) (ul * ua * sl) (ur * ub * t) (ul * ub * tl)
        (ur * x) (ul * y) =
      some (Algebra.xgcdGo f (ur * ua * s) (ul * ua * sl) (ur * ub * t)
        (ul * ub * tl) (ur * x) (ul * y)) := by
  intro f
  induction f with
  | zero => intro x y s sl t tl ur ul ua ub ε aa bb hf; omega
  | succ f ih =>
    intro x y s sl t tl ur ul ua ub ε aa bb hf hur hul hua hub hε
      hx0 hx7 hy0 hy7 haa0 haa7 hbb0 hbb7 hsd hεs hεsl htd hεt hεtl
    by_cases hx : x = 0
    · subst hx
      simp [xgcdI8Go, Algebra.xgcdGo]
    · have hxpos : 0 < x := lt_of_le_of_ne hx0 (Ne.symm hx)
      have hrx : ur * x ≠ 0 := by
        rcases hur with rfl | rfl <;> simpa using hx
      obtain ⟨q, hq_def⟩ : ∃ q, y.tdiv x = q := ⟨_, rfl⟩
      obtain ⟨m, hm_def⟩ : ∃ m, y.tmod x = m := ⟨_, rfl⟩
      have hq0 : 0 ≤ q := by rw [← hq_def]; exact Int.tdiv_nonneg hy0 hx0
      have hm0 : 0 ≤ m := by rw [← hm_def]; exact Int.tmod_nonneg x hy0
      have hmlt : m < x := by rw [← hm_def]; exact Int.tmod_lt_of_pos y hxpos
      have hqx : q * x = y - m := by
        have h := Int.tdiv_add_tmod y x
        rw [hq_def, hm_def] at h
        linear_combination h
      have hqxnn : 0 ≤ q * x := mul_nonneg hq0 hx0
      have htdiv : (ul * y).tdiv (ur * x) = ul * ur * q := by
        rw [tdiv_units hur hul x y, hq_def]
      -- the division step
      have hdiv : divI8 (ul * y) (ur * x) = some (ul * ur * q) := by
        unfold divI8
        rw [if_neg hrx, if_neg (by
          rintro ⟨h1, -⟩
          rcases hul with rfl | rfl <;> omega), htdiv]
      -- r-row bounds
      have hqxabs : (q * x).natAbs ≤ 127 := by
        rw [hqx]
        exact natAbs_le_127 (by linarith) (by linarith)
      have hmabs : m.natAbs ≤ 127 := natAbs_le_127 hm0 (by linarith)
      have hmulr : mulI8 (ul * ur * q) (ur * x) = some (ul * (q * x)) := by
        have hv : (ul * ur * q) * (ur * x) = ul * (q * x) := by
          rcases hur with rfl | rfl <;> ring
        unfold mulI8
        rw [hv, if_pos (fits_of_natAbs (by
          rwa [natAbs_unit_mul hul]))]
      have hsubr : subI8 (ul * y) (ul * (q * x)) = some (ul * m) := by
        have hv : ul * y - ul * (q * x) = ul * m := by
          linear_combination (-ul) * hqx
        unfold subI8
        rw [hv, if_pos (fits_of_natAbs (by rwa [natAbs_unit_mul hul]))]
      -- s-row facts
      have hεqs : 0 ≤ ε * (q * s) := by linarith [mul_nonneg hq0 hεs]
      have hdet2 : -ε * ((sl - q * s) * x - s * m) = bb := by
        linear_combination hsd + ε * s * hqx
      have hεS : ε * (sl - q * s) ≤ 0 := by
        linarith [mul_nonneg hq0 hεs]
      have hSx : -ε * (sl - q * s) * x ≤ bb := by
        linarith [mul_nonneg hεs hm0, hdet2]
      have hSle : -ε * (sl - q * s) ≤ bb := by
        have hA : 0 ≤ -ε * (sl - q * s) := by linarith
        have hB := le_mul_of_one_le_right hA (by linarith : (1:Int) ≤ x)
        linarith
      have hqs_le : ε * (q * s) ≤ bb := by linarith
      have hqs_abs : (q * s).natAbs ≤ 127 :=
        natAbs_le_of_unit hε hεqs (by linarith)
      have hS_abs : (sl - q * s).natAbs ≤ 127 :=
        natAbs_le_of_unit (neg_unit hε) (by linarith) (by linarith)
      have hmuls : mulI8 (ul * ur * q) (ur * ua * s) =
          some (ul * ua * (q * s)) := by
        have hv : (ul * ur * q) * (ur * ua * s) = ul * ua * (q * s) := by
          rcases hur with rfl | rfl <;> ring
        unfold mulI8
        rw [hv, if_pos (fits_of_natAbs (by
          rwa [natAbs_unit_mul (unit_mul_unit hul hua)]))]
      have hsubs : subI8 (ul * ua * sl) (ul * ua * (q * s)) =
          some (ul * ua * (sl - q * s)) := by
        have hv : ul * ua * sl - ul * ua * (q * s) = ul * ua * (sl - q * s) := by
          ring
        unfold subI8
        rw [hv, if_pos (fits_of_natAbs (by
          rwa [natAbs_unit_mul (unit_mul_unit hul hua)]))]
      -- t-row facts
      have hεqt : ε * (q * t) ≤ 0 := by
        linarith [mul_nonneg hq0 (by linarith : (0:Int) ≤ -(ε * t))]
      have hdet2t : -ε * ((tl - q * t) * x - t * m) = -aa := by
        linear_combination htd + ε * t * hqx
      have hεT : 0 ≤ ε * (tl - q * t) := by linarith
      have hTx : ε * (tl - q * t) * x ≤ aa := by
        linarith [mul_nonneg (by linarith : (0:Int) ≤ -(ε * t)) hm0, hdet2t]
      have hTle : ε * (tl - q * t) ≤ aa := by
        have hB := le_mul_of_one_le_right hεT (by linarith : (1:Int) ≤ x)
        linarith
      have hqt_ge : -aa ≤ ε * (q * t) := by linarith
      have hqt_abs : (q * t).natAbs ≤ 127 :=
        natAbs_le_of_unit (neg_unit hε) (by linarith) (by linarith)
      have hT_abs : (tl - q * t).natAbs ≤ 127 :=
        natAbs_le_of_unit hε hεT (by linarith)
      have hmult : mulI8 (ul * ur * q) (ur * ub * t) =
          some (ul * ub * (q * t)) := by
        have hv : (ul * ur * q) * (ur * ub * t) = ul * ub * (q * t) := by
          rcases hur with rfl | rfl <;> ring
        unfold mulI8
        rw [hv, if_pos (fits_of_natAbs (by
          rwa [natAbs_unit_mul (unit_mul_unit hul hub)]))]
      have hsubt : subI8 (ul * ub * tl) (ul * ub * (q * t)) =
          some (ul * ub * (tl - q * t)) := by
        have hv : ul * ub * tl - ul * ub * (q * t) = ul * ub * (tl - q * t) := by
          ring
        unfold subI8
        rw [hv, if_pos (fits_of_natAbs (by
          rwa [natAbs_unit_mul (unit_mul_unit hul hub)]))]
      -- argument normalizations for the unchecked loop
      have harg_s : ul * ua * sl - ul * ur * q * (ur * ua * s) =
          ul * ua * (sl - q * s) := by
        rcases hur with rfl | rfl <;> ring
      have harg_t : ul * ub * tl - ul * ur * q * (ur * ub * t) =
          ul * ub * (tl - q * t) := by
        rcases hur with rfl | rfl <;> ring
      have harg_r : ul * y - ul * ur * q * (ur * x) = ul * m := by
        rcases hur with rfl | rfl <;> linear_combination (-ul) * hqx
      -- hypotheses for the recursive call
      have hf2 : m.natAbs < f := fuel_step hm0 hmlt hf
      have hm7 : m ≤ 127 := by linarith
      have hn1 : 0 ≤ -ε * (sl - q * s) := by linarith
      have hn2 : -ε * s ≤ 0 := by linarith
      have hn3 : -ε * (tl - q * t) ≤ 0 := by linarith
      have hn4 : 0 ≤ -ε * t := by linarith
      -- one loop iteration on each side
      rw [xgcdI8Go_step_some f _ _ _ _ _ _ _ _ _ _ _ _ _ hrx hdiv hmulr hsubr
          hmuls hsubs hmult hsubt,
        Algebra.xgcdGo_step_eq f _ _ _ _ _ _ _ _ _ _ hrx htdiv harg_s harg_t
          harg_r]
      exact ih m x (sl - q * s) s (tl - q * t) t ul ur ua ub (-ε) aa bb
        hf2 hul hur hua hub (neg_unit hε) hm0 hm7 hx0 hx7 haa0 haa7 hbb0 hbb7
        hdet2 hn1 hn2 hdet2t hn3 hn4

end I8

namespace I8

/-- `xgcd` on any `i8` pair strictly above the minimum completes without
overflow and agrees with the unbounded computation.  The four sign cases
instantiate the unit-signed invariant `xgcdI8Go_safe`. -/
theorem xgcdI8_safe {a b : Int} (ha1 : -127 ≤ a) (ha2 : a ≤ 127)
    (hb1 : -127 ≤ b) (hb2 : b ≤ 127) :
    xgcdI8 a b = some (Algebra.xgcd a b) := by
  unfold xgcdI8 Algebra.xgcd
  rcases le_or_lt 0 a with ha | ha <;> rcases le_or_lt 0 b with hb | hb
  · have h := xgcdI8Go_safe (b.natAbs + 1) b a 0 1 1 0 1 1 1 1 (-1) a b
      (by omega) (Or.inl rfl) (Or.inl rfl) (Or.inl rfl) (Or.inl rfl)
      (Or.inr rfl) hb hb2 ha ha2 ha ha2 hb hb2
      (by ring) (by norm_num) (by norm_num) (by ring) (by norm_num)
      (by norm_num)
    simpa using h
  · have h := xgcdI8Go_safe ((-b).natAbs + 1) (-b) a 0 1 1 0 (-1) 1 1 (-1)
      (-1) a (-b)
      (by omega) (Or.inr rfl) (Or.inl rfl) (Or.inl rfl) (Or.inr rfl)
      (Or.inr rfl) (by omega) (by omega) ha ha2 ha ha2 (by omega) (by omega)
      (by ring) (by norm_num) (by norm_num) (by ring) (by norm_num)
      (by norm_num)
    simp only [neg_neg, one_mul, mul_one, mul_zero, neg_zero, mul_neg,
      neg_mul] at h
    have hfix : (-b).natAbs = b.natAbs := by omega
    rw [hfix] at h
    simpa using h
  · have h := xgcdI8Go_safe (b.natAbs + 1) b (-a) 0 1 1 0 1 (-1) (-1) 1
      (-1) (-a) b
      (by omega) (Or.inl rfl) (Or.inr rfl) (Or.inr rfl) (Or.inl rfl)
      (Or.inr rfl) hb hb2 (by omega) (by omega) (by omega) (by omega) hb hb2
      (by ring) (by norm_num) (by norm_num) (by ring) (by norm_num)
      (by norm_num)
    simp only [neg_neg, one_mul, mul_one, mul_zero, neg_zero, mul_neg,
      neg_mul] at h
    simpa using h
  · have h := xgcdI8Go_safe ((-b).natAbs + 1) (-b) (-a) 0 1 1 0 (-1) (-1)
      (-1) (-1) (-1) (-a) (-b)
      (by omega) (Or.inr rfl) (Or.inr rfl) (Or.inr rfl) (Or.inr rfl)
      (Or.inr rfl) (by omega) (by omega) (by omega) (by omega) (by omega)
      (by omega) (by omega) (by omega)
      (by ring) (by norm_num) (by norm_num) (by ring) (by norm_num)
      (by norm_num)
    simp only [neg_neg, one_mul, mul_one, mul_zero, neg_zero, mul_neg,
      neg_mul] at h
    have hfix : (-b).natAbs = b.natAbs := by omega
    rw [hfix] at h
    simpa using h

end I8

/-!
## Claim theorems
-/

/-- C1: for every pair of integers with at least one of them nonzero, the
triple `(g, x, y)` returned by `xgcd(a, b)` satisfies the Bézout identity
`a*x + b*y = g`, and `g` divides both `a` and `b`. -/
theorem xgcd_bezout_and_divides (a b : Int) (_h : a ≠ 0 ∨ b ≠ 0) :
    a * (Algebra.xgcd a b).2.1 + b * (Algebra.xgcd a b).2.2 =
      (Algebra.xgcd a b).1 ∧
    (Algebra.xgcd a b).1 ∣ a ∧ (Algebra.xgcd a b).1 ∣ b :=
  ⟨Algebra.xgcd_bezout a b, Algebra.xgcd_fst_dvd a b⟩

/-- C1 witness: the Bézout identity and divisibility at the concrete pair
`(37, 14)`. -/
theorem xgcd_bezout_and_divides_witness :
    ((37 : Int) ≠ 0 ∨ (14 : Int) ≠ 0) ∧
    (37 * (Algebra.xgcd 37 14).2.1 + 14 * (Algebra.xgcd 37 14).2.2 =
      (Algebra.xgcd 37 14).1 ∧
    (Algebra.xgcd 37 14).1 ∣ 37 ∧ (Algebra.xgcd 37 14).1 ∣ 14) :=
  ⟨Or.inl (by decide), xgcd_bezout_and_divides 37 14 (Or.inl (by decide))⟩

/-- C2 counterexample: over the modelled default group (order 31), message
27, private key 5 and nonce 7 — coprime to the order, as the claim requires —
produce the signature `(7, 0)`, whose `s = 0` makes `verify` fail at the
`mod_div` precondition instead of returning `true`.  So sign-then-verify does
not round-trip for every message, key and coprime nonce. -/
theorem ecdsa_roundtrip_counterexample :
    Int.gcd 7 Ecdsa.defaultGroup.order = 1 ∧
    Ecdsa.sign Ecdsa.defaultGroup 27 5 7 = some (7, 0) ∧
    Ecdsa.verify Ecdsa.defaultGroup 27 (Ecdsa.pubkey Ecdsa.defaultGroup 5) 7 0 ≠
      some true := by
  exact ⟨by decide, by decide, by decide⟩

/-- C2 witness: the spec's concrete acceptance scenario — message 10,
private key 5, nonce 7 over the default group — round-trips to `true`. -/
theorem ecdsa_sign_verify_roundtrip_witness :
    Ecdsa.sign Ecdsa.defaultGroup 10 5 7 = some (7, 2) ∧
    Int.gcd 2 Ecdsa.defaultGroup.order = 1 ∧
    Ecdsa.verify Ecdsa.defaultGroup 10 (Ecdsa.pubkey Ecdsa.defaultGroup 5) 7 2 =
      some true :=
  ⟨by decide, by decide,
    ecdsa_sign_verify_roundtrip Ecdsa.defaultGroup 10 5 7 7 2
      Ecdsa.defaultGroup_basemul_congr Ecdsa.defaultGroup_mul
      Ecdsa.defaultGroup_add (by decide) (by decide) (by decide)⟩

/-- C3: whenever the nonce inversion succeeds, `sign` returns the pair whose
first component is the x-coordinate of the nonce-scaled generator point — not
reduced modulo the group order — and whose second component is
`mod_mul(mod_add(z, mod_mul(r, private, n), n), mod_div(1, nonce, n), n)`
with `z` the hash of the message. -/
theorem sign_formula {Point : Type} (g : Ecdsa.SubGroup Point)
    (message privateKey randomk kinverse : Int)
    (h : Arith.mod_div 1 randomk g.order = some kinverse) :
    Ecdsa.sign g message privateKey randomk =
      some (g.x (g.scalar_basemul randomk),
        Arith.mod_mul
          (Arith.mod_add (Ecdsa.hash message)
            (Arith.mod_mul (g.x (g.scalar_basemul randomk)) privateKey
              g.order) g.order)
          kinverse g.order) :=
  Ecdsa.sign_eq g message privateKey randomk kinverse h

/-- C3 witness: the formula instantiated over the default group at message 10,
private key 5, nonce 7 (whose inverse modulo 31 is 9). -/
theorem sign_formula_witness :
    Arith.mod_div 1 7 Ecdsa.defaultGroup.order = some 9 ∧
    Ecdsa.sign Ecdsa.defaultGroup 10 5 7 =
      some (Ecdsa.defaultGroup.x (Ecdsa.defaultGroup.scalar_basemul 7),
        Arith.mod_mul
          (Arith.mod_add (Ecdsa.hash 10)
            (Arith.mod_mul
              (Ecdsa.defaultGroup.x (Ecdsa.defaultGroup.scalar_basemul 7)) 5
              Ecdsa.defaultGroup.order) Ecdsa.defaultGroup.order)
          9 Ecdsa.defaultGroup.order) :=
  ⟨by decide, sign_formula Ecdsa.defaultGroup 10 5 7 9 (by decide)⟩

/-- C4: whenever `mod_div` is invoked with a divisor `b` not coprime to the
modulus `m` (including `b = 0`), the call surfaces an explicit failure
(`none`) rather than silently returning a wrong result. -/
theorem mod_div_noncoprime_fails (a b m : Int) (h : Int.gcd b m ≠ 1) :
    Arith.mod_div a b m = none :=
  Arith.mod_div_none a h

/-- C4 witness: dividing by 0 modulo 31 fails explicitly. -/
theorem mod_div_noncoprime_fails_witness :
    Int.gcd 0 31 ≠ 1 ∧ Arith.mod_div 1 0 31 = none :=
  ⟨by decide, mod_div_noncoprime_fails 1 0 31 (by decide)⟩

/-- C5: whenever the modular operations of `verify` complete, it returns the
boolean equality `scalar_add(p1, p2).x == r` with
`p1 = scalar_basemul(mod_mul(z, s_inv, n))` and
`p2 = scalar_mul(pubkey, mod_mul(r, s_inv, n))`; a mismatch yields the value
`false`, not an error. -/
theorem verify_returns_comparison {Point : Type} (g : Ecdsa.SubGroup Point)
    (message : Int) (pk : Point) (r s sinverse : Int)
    (h : Arith.mod_div 1 s g.order = some sinverse) :
    Ecdsa.verify g message pk r s =
      some (g.x (g.scalar_add
          (g.scalar_basemul (Arith.mod_mul (Ecdsa.hash message) sinverse
            g.order))
          (g.scalar_mul pk (Arith.mod_mul r sinverse g.order)))
        == r) ∧
    (g.x (g.scalar_add
        (g.scalar_basemul (Arith.mod_mul (Ecdsa.hash message) sinverse
          g.order))
        (g.scalar_mul pk (Arith.mod_mul r sinverse g.order))) ≠ r →
      Ecdsa.verify g message pk r s = some false) := by
  have h1 := Ecdsa.verify_eq g message pk r s sinverse h
  refine ⟨h1, fun hne => ?_⟩
  rw [h1]
  simp only [Option.some.injEq, beq_eq_false_iff_ne, ne_eq]
  exact hne

/-- C5 witness: the comparison shape of `verify` over the default group at
message 10, public key `pubkey(5)`, signature `(7, 2)` (the inverse of 2
modulo 31 being 16). -/
theorem verify_returns_comparison_witness :
    Arith.mod_div 1 2 Ecdsa.defaultGroup.order = some 16 ∧
    Ecdsa.verify Ecdsa.defaultGroup 10 (Ecdsa.pubkey Ecdsa.defaultGroup 5) 7 2 =
      some (Ecdsa.defaultGroup.x (Ecdsa.defaultGroup.scalar_add
          (Ecdsa.defaultGroup.scalar_basemul
            (Arith.mod_mul (Ecdsa.hash 10) 16 Ecdsa.defaultGroup.order))
          (Ecdsa.defaultGroup.scalar_mul (Ecdsa.pubkey Ecdsa.defaultGroup 5)
            (Arith.mod_mul 7 16 Ecdsa.defaultGroup.order)))
        == 7) :=
  ⟨by decide,
    (verify_returns_comparison Ecdsa.defaultGroup 10
      (Ecdsa.pubkey Ecdsa.defaultGroup 5) 7 2 16 (by decide)).1⟩

/-- C6: for every integer `a`, `gcd(a, 0) = a` and `gcd(0, a) = a`; the
result is not necessarily normalized to be non-negative (the sign follows the
last nonzero remainder, e.g. `gcd(-4, -2) = -2 < 0`). -/
theorem gcd_zero_identities :
    (∀ a : Int, Algebra.gcd a 0 = a ∧ Algebra.gcd 0 a = a) ∧
    (∃ a b : Int, Algebra.gcd a b < 0) := by
  constructor
  · intro a
    refine ⟨rfl, ?_⟩
    by_cases h : a = 0
    · subst h; rfl
    · obtain ⟨n, hn⟩ : ∃ n, a.natAbs = n + 1 :=
        ⟨a.natAbs - 1, by have := Int.natAbs_pos.mpr h; omega⟩
      show Algebra.gcdGo (a.natAbs + 1) 0 a = a
      rw [hn]
      simp only [Algebra.gcdGo, h, if_false, Int.zero_tmod]
      cases n <;> simp [Algebra.gcdGo]
  · exact ⟨-4, -2, by decide⟩

/-- C7: on the concrete inputs `(37, 14)`, `gcd` returns 1 and `xgcd` returns
exactly `(1, -3, 8)`, which satisfies `37*(-3) + 14*8 = 1`. -/
theorem gcd_xgcd_37_14 :
    Algebra.gcd 37 14 = 1 ∧ Algebra.xgcd 37 14 = (1, -3, 8) ∧
      37 * (-3) + 14 * 8 = (1 : Int) := by decide

/-- C8: for every pair of integer inputs, the loops of `gcd` and `xgcd`
terminate — the remainder strictly decreases in magnitude each step, and the
step-counting loops finish within `natAbs b + 1` iterations, agreeing with
`gcd` and `xgcd`. -/
theorem gcd_xgcd_terminate (a b : Int) :
    (b ≠ 0 → (a.tmod b).natAbs < b.natAbs) ∧
    Algebra.gcdFuel (b.natAbs + 1) a b = some (Algebra.gcd a b) ∧
    Algebra.xgcdFuel (b.natAbs + 1) 0 1 1 0 b a = some (Algebra.xgcd a b) :=
  ⟨fun hb => Algebra.natAbs_tmod_lt a hb,
   Algebra.gcdFuel_some _ a b (by omega),
   Algebra.xgcdFuel_some _ 0 1 1 0 b a (by omega)⟩

/-- C8 witness: termination at the concrete pair `(37, 14)`. -/
theorem gcd_xgcd_terminate_witness :
    ((14 : Int) ≠ 0 → ((37 : Int).tmod 14).natAbs < (14 : Int).natAbs) ∧
    Algebra.gcdFuel ((14 : Int).natAbs + 1) 37 14 =
      some (Algebra.gcd 37 14) ∧
    Algebra.xgcdFuel ((14 : Int).natAbs + 1) 0 1 1 0 14 37 =
      some (Algebra.xgcd 37 14) :=
  gcd_xgcd_terminate 37 14

/-- C9: for every integer `a`, `xgcd(a, 0)` returns exactly `(a, 1, 0)`
without executing any loop iteration (zero fuel suffices); in particular
`xgcd(0, 0) = (0, 1, 0)` and `gcd(0, 0) = 0`. -/
theorem xgcd_at_zero (a : Int) :
    Algebra.xgcd a 0 = (a, 1, 0) ∧
    Algebra.xgcdFuel 0 0 1 1 0 0 a = some (a, 1, 0) ∧
    Algebra.xgcd 0 0 = (0, 1, 0) ∧ Algebra.gcd 0 0 = 0 :=
  ⟨rfl, rfl, rfl, rfl⟩

/-- C10 counterexample: the `i8` computations overflow on `(-128, -1)` — the
`-128 % -1` and `-128 / -1` divisions overflow — and `xgcd(-128, 1)`
overflows in a Bézout-coefficient subtraction, so not every pair of `i8`
inputs completes without signed-integer overflow. -/
theorem gcd_xgcd_overflow_at_min :
    I8.gcdI8 (-128) (-1) = none ∧ I8.xgcdI8 (-128) (-1) = none ∧
    I8.xgcdI8 (-128) 1 = none := by decide

/-- C10 (amended): for every pair of `i8` inputs strictly above `i8::MIN`
(both in `[-127, 127]`), `gcd` and `xgcd` complete without signed-integer
overflow in their intermediate `%`, `/`, `*` and `-` operations, agreeing
with the unbounded integer computation. -/
theorem gcd_xgcd_no_overflow_above_min (a b : Int)
    (ha1 : -127 ≤ a) (ha2 : a ≤ 127) (hb1 : -127 ≤ b) (hb2 : b ≤ 127) :
    I8.gcdI8 a b = some (Algebra.gcd a b) ∧
    I8.xgcdI8 a b = some (Algebra.xgcd a b) :=
  ⟨I8.gcdI8_safe ha1 ha2 hb1 hb2, I8.xgcdI8_safe ha1 ha2 hb1 hb2⟩

/-- C10 witness: the checked computations complete at the concrete pair
`(-100, -13)`. -/
theorem gcd_xgcd_no_overflow_above_min_witness :
    ((-127 : Int) ≤ -100 ∧ (-100 : Int) ≤ 127 ∧
      (-127 : Int) ≤ -13 ∧ (-13 : Int) ≤ 127) ∧
    (I8.gcdI8 (-100) (-13) = some (Algebra.gcd (-100) (-13)) ∧
     I8.xgcdI8 (-100) (-13) = some (Algebra.xgcd (-100) (-13))) :=
  ⟨by decide,
    gcd_xgcd_no_overflow_above_min (-100) (-13) (by decide) (by decide)
      (by decide) (by decide)⟩
